import Mathlib

/-!
Shallow embedding of the signature dependency-resolution and bundling
algorithm of `al_ui/api/v4/signature.py` (`download_signatures`, lines
260-415), together with the cache orchestration around it.

Modelling conventions:
* A stored signature document is modelled by `Rule`.  `name` is the
  document's `name` field with the empty string standing for an absent or
  empty name (Python's falsy check `if not name` conflates the two).
  `rule_version` is the integer `int(s['meta']['rule_version'])`;
  `rule_id` is `s['meta']['rule_id']`; `rtype` is `s['type']`;
  `depends` is `s['depends']` with `[]` standing for `None` or an empty
  list (the code treats the two identically).
* Python's `rules_map` dict (insertion-ordered, update-in-place) is
  modelled by an association list with `mapGet`/`mapSet`.
* Python's `name_map` dict with only `True` values is modelled by a
  `List String` with membership as the lookup.
* Python's stable `sorted(..., key=rule_id)` is modelled by a stable
  insertion sort `sortById`.
-/

structure Rule where
  rule_id : String
  rule_version : Nat
  name : String
  rtype : String
  depends : List String
deriving Repr, DecidableEq

/-- Insertion-ordered map update, exactly Python's `d[k] = v`:
replace in place when the key is present, append otherwise. -/
def mapSet (m : List (String × Rule)) (k : String) (v : Rule) : List (String × Rule) :=
  match m with
  | [] => [(k, v)]
  | (k0, v0) :: rest => if k0 = k then (k, v) :: rest else (k0, v0) :: mapSet rest k v

/-- Map lookup, Python's `d.get(k)`. -/
def mapGet (m : List (String × Rule)) (k : String) : Option Rule :=
  match m with
  | [] => none
  | (k0, v0) :: rest => if k0 = k then some v0 else mapGet rest k

/-- One step of the safe-mode duplicate-resolution fold
(signature.py lines 275-289).  State is `(rules_map, duplicate_rules)`. -/
def dedupStep (acc : List (String × Rule) × List String) (s : Rule) :
    List (String × Rule) × List String :=
  if s.name = "" then acc
  else
    let pversion := match mapGet acc.1 s.name with
      | some p => p.rule_version
      | none => 0
    if s.rule_version < pversion then (acc.1, acc.2 ++ [s.name])
    else (mapSet acc.1 s.name s, acc.2)

/-- Safe-mode duplicate resolution (signature.py lines 273-290):
returns `rules_map.values()` (in dict insertion order) and
`duplicate_rules`. -/
def dedup (l : List Rule) : List Rule × List String :=
  let acc := l.foldl dedupStep ([], [])
  (acc.1.map (fun p => p.2), acc.2)

/-- Visibility / dependency buckets plus the `name_map` seed built by the
partitioning loop (signature.py lines 292-308). -/
structure Buckets where
  glob : List Rule
  privNo : List Rule
  privDep : List Rule
  noDep : List Rule
  dep : List Rule
  nm : List String
deriving Repr, DecidableEq

def emptyBuckets : Buckets := ⟨[], [], [], [], [], []⟩

/-- One step of the partitioning loop (signature.py lines 293-308). -/
def partitionStep (b : Buckets) (s : Rule) : Buckets :=
  if s.rtype.startsWith ("global") then
    { b with glob := b.glob ++ [s], nm := s.name :: b.nm }
  else if s.rtype.startsWith ("private") then
    if s.depends = [] then { b with privNo := b.privNo ++ [s], nm := s.name :: b.nm }
    else { b with privDep := b.privDep ++ [s] }
  else
    if s.depends = [] then { b with noDep := b.noDep ++ [s], nm := s.name :: b.nm }
    else { b with dep := b.dep ++ [s] }

def partitionAll (l : List Rule) : Buckets := l.foldl partitionStep emptyBuckets

/-- Stable insertion of a rule into a list sorted by `rule_id`
(equal keys keep their relative order, as Python's stable `sorted`). -/
def insertById (s : Rule) : List Rule → List Rule
  | [] => [s]
  | t :: ts => if s.rule_id < t.rule_id then s :: t :: ts else t :: insertById s ts

/-- Stable sort by `meta.rule_id` (signature.py lines 310-314). -/
def sortById : List Rule → List Rule
  | [] => []
  | s :: ss => insertById s (sortById ss)

/-- One scan of the pending list of a dependency-resolution fix-point loop
(signature.py lines 318-328 / 345-355).  Returns
`(still-pending, name_map, appended-this-round)`; a record is appended as
soon as every name in its `depends` is in `name_map`, and its own name is
added to `name_map` before later records of the same scan are examined. -/
def resolveRound (nm : List String) : List Rule → List Rule × List String × List Rule
  | [] => ([], nm, [])
  | r :: rs =>
    if r.depends.all (fun d => nm.contains d) then
      let res := resolveRound (r.name :: nm) rs
      (res.1, res.2.1, r :: res.2.2)
    else
      let res := resolveRound nm rs
      (r :: res.1, res.2.1, res.2.2)

/-- Concatenation of the per-record error contributions of a stalled
pending list (`error_rules += ...`, signature.py lines 331-332 / 358). -/
def concatMapS (f : Rule → List String) : List Rule → List String
  | [] => []
  | r :: rs => f r ++ concatMapS f rs

/-- The still-pending list produced by one scan is a sublist of the scanned
list (not-ready records are kept in their original relative order). -/
theorem resolveRound_sublist (nm : List String) (l : List Rule) :
    (resolveRound nm l).1.Sublist l := by
  induction l generalizing nm with
  | nil => simp [resolveRound]
  | cons r rs ih =>
    simp only [resolveRound]
    split
    · exact (ih (r.name :: nm)).trans (List.sublist_cons_self r rs)
    · exact List.Sublist.cons₂ r (ih nm)

/-- A dependency-resolution fix-point loop (signature.py lines 317-341 and
344-366), parameterised by the safe flag and by the error policy `errOf`
applied to each stalled record: the private pass uses
`fun x => x.depends`, the general pass uses `fun x => [x.name]`.
Returns `(appended output, final name_map, error_rules contribution)`. -/
def resolveLoop (safe : Bool) (errOf : Rule → List String) (nm : List String)
    (pending : List Rule) : List Rule × List String × List String :=
  match pending with
  | [] => ([], nm, [])
  | p :: ps =>
    let res := resolveRound nm (p :: ps)
    if h : res.1 = p :: ps then
      let errs := concatMapS errOf (p :: ps)
      if safe then (res.2.2, res.2.1, errs)
      else (res.2.2 ++ (p :: ps), res.2.1 ++ (p :: ps).map (fun s => s.name), errs)
    else
      let r2 := resolveLoop safe errOf res.2.1 res.1
      (res.2.2 ++ r2.1, r2.2.1, r2.2.2)
termination_by pending.length
decreasing_by
  simp_wf
  have hs := resolveRound_sublist nm (t :: ts)
  rcases lt_or_eq_of_le hs.length_le with hlt | heq
  · simpa using hlt
  · exact absurd (hs.eq_of_length heq) h

/-- Fuel-indexed version of `resolveLoop`: one unit of fuel per loop
iteration, `none` when fuel runs out before the loop ends. -/
def resolveLoopF (safe : Bool) (errOf : Rule → List String) :
    Nat → List String → List Rule → Option (List Rule × List String × List String)
  | _, nm, [] => some ([], nm, [])
  | 0, _, _ :: _ => none
  | fuel + 1, nm, p :: ps =>
    let res := resolveRound nm (p :: ps)
    if res.1 = p :: ps then
      let errs := concatMapS errOf (p :: ps)
      if safe then some (res.2.2, res.2.1, errs)
      else some (res.2.2 ++ (p :: ps), res.2.1 ++ (p :: ps).map (fun s => s.name), errs)
    else
      match resolveLoopF safe errOf fuel res.2.1 res.1 with
      | some r2 => some (res.2.2 ++ r2.1, r2.2.1, r2.2.2)
      | none => none

/-- The (possibly deduplicated) signature list entering the partitioning
loop: `dedup` is applied exactly when the request is in safe mode
(signature.py line 273).  Also returns `duplicate_rules`. -/
def preDedup (safe : Bool) (sigs : List Rule) : List Rule × List String :=
  if safe then dedup sigs else (sigs, [])

/-- The buckets and `name_map` seed built from the fetched signatures
(signature.py lines 292-308). -/
def bucketsOf (safe : Bool) (sigs : List Rule) : Buckets :=
  partitionAll (preDedup safe sigs).1

/-- The `name_map` state at the moment the private-pass fix-point loop
starts (signature.py line 317): exactly the `name_map` built by the
partitioning loop. -/
def privateSeed (safe : Bool) (sigs : List Rule) : List String :=
  (bucketsOf safe sigs).nm

/-- The private-visibility dependency-resolution pass
(signature.py lines 317-341): pending list is the identity-sorted
`private_rules_dep` bucket, error policy contributes every dependency
name of a stalled record. -/
def privatePass (safe : Bool) (sigs : List Rule) :
    List Rule × List String × List String :=
  resolveLoop safe (fun x => x.depends) (privateSeed safe sigs)
    (sortById (bucketsOf safe sigs).privDep)

/-- The general dependency-resolution pass (signature.py lines 344-366):
pending list is the identity-sorted `rules_dep` bucket, `name_map` is the
state left by the private pass, error policy contributes the stalled
record's own name. -/
def generalPass (safe : Bool) (sigs : List Rule) :
    List Rule × List String × List String :=
  resolveLoop safe (fun x => [x.name]) (privatePass safe sigs).2.1
    (sortById (bucketsOf safe sigs).dep)

/-- The final bundle order (signature.py lines 316, 343 and the appends
inside both loops): global bucket, private no-dependency bucket, private
pass output, standard no-dependency bucket, general pass output. -/
def bundleList (safe : Bool) (sigs : List Rule) : List Rule :=
  sortById (bucketsOf safe sigs).glob ++ sortById (bucketsOf safe sigs).privNo
    ++ (privatePass safe sigs).1 ++ sortById (bucketsOf safe sigs).noDep
    ++ (generalPass safe sigs).1

/-- The whole resolution/bundling core of `download_signatures`
(signature.py lines 264-367): returns the ordered bundle,
`duplicate_rules` and `error_rules` (private-pass contributions first). -/
def downloadCore (safe : Bool) (sigs : List Rule) :
    List Rule × List String × List String :=
  (bundleList safe sigs, (preDedup safe sigs).2,
    (privatePass safe sigs).2.2 ++ (generalPass safe sigs).2.2)

/-- Modelled from the spec: the cache store's `get` contract (spec section 6,
`get(fingerprint) -> bytes|absent`); the store itself lives outside this
repository (`forge.get_cachestore`). -/
def cacheGet (st : List (String × String)) (k : String) : Option String :=
  match st with
  | [] => none
  | (k0, v0) :: rest => if k0 = k then some v0 else cacheGet rest k

/-- Modelled from the spec: the cache store's `put` contract (spec section 6,
`put(fingerprint, bytes)`). -/
def cacheSave (st : List (String × String)) (k : String) (v : String) :
    List (String × String) :=
  (k, v) :: st

/-- One run of the `download_signatures` cache orchestration for a fixed
fingerprint `k` (signature.py lines 250-258 and 407-415), sequentialised:
check the cache, on a hit return the cached bytes unchanged, on a miss
compute the bundle bytes, store them and return them.  `computeBytes` is
the (deterministic) serialized bundle for this fingerprint.  The returned
`Bool` records whether the bundle was recomputed. -/
def downloadOnce (computeBytes : String) (k : String)
    (st : List (String × String)) : String × List (String × String) × Bool :=
  match cacheGet st k with
  | some s => (s, st, false)
  | none => (computeBytes, cacheSave st k computeBytes, true)

/-- The dependency-ordering property of an output list: scanned left to
right, every record's dependency names are all present among the seeded
names `nm` or the names of earlier records of the list. -/
def goodChain : List String → List Rule → Bool
  | _, [] => true
  | nm, r :: rs => r.depends.all (fun d => nm.contains d) && goodChain (r.name :: nm) rs

theorem resolveLoop_nil (safe : Bool) (errOf : Rule → List String) (nm : List String) :
    resolveLoop safe errOf nm [] = ([], nm, []) := by
  rw [resolveLoop]

/-- Unfolding of `resolveLoop` on a round that makes no progress: the error
report is taken, and the stalled records are dropped (safe mode) or
force-appended with their names resolved (non-safe mode). -/
theorem resolveLoop_stall (safe : Bool) (errOf : Rule → List String) (nm : List String)
    (pending : List Rule) (hne : pending ≠ [])
    (hs : (resolveRound nm pending).1 = pending) :
    resolveLoop safe errOf nm pending =
      (if safe then
        ((resolveRound nm pending).2.2, (resolveRound nm pending).2.1, concatMapS errOf pending)
       else
        ((resolveRound nm pending).2.2 ++ pending,
         (resolveRound nm pending).2.1 ++ pending.map (fun s => s.name),
         concatMapS errOf pending)) := by
  match pending with
  | [] => exact absurd rfl hne
  | p :: ps =>
    rw [resolveLoop]
    simp only [hs, dif_pos]

/-- Unfolding of `resolveLoop` on a round that makes progress. -/
theorem resolveLoop_progress (safe : Bool) (errOf : Rule → List String) (nm : List String)
    (pending : List Rule) (hne : pending ≠ [])
    (hs : (resolveRound nm pending).1 ≠ pending) :
    resolveLoop safe errOf nm pending =
      ((resolveRound nm pending).2.2
          ++ (resolveLoop safe errOf (resolveRound nm pending).2.1 (resolveRound nm pending).1).1,
       (resolveLoop safe errOf (resolveRound nm pending).2.1 (resolveRound nm pending).1).2.1,
       (resolveLoop safe errOf (resolveRound nm pending).2.1 (resolveRound nm pending).1).2.2) := by
  match pending with
  | [] => exact absurd rfl hne
  | p :: ps =>
    rw [resolveLoop]
    simp only [hs, dite_false]

/-- A fuel budget of one iteration per pending record always suffices: the
fuel-indexed loop returns within `pending.length` rounds, with the same
result as the fix-point loop. -/
theorem resolveLoopF_complete (safe : Bool) (errOf : Rule → List String) :
    ∀ (fuel : Nat) (pending : List Rule) (nm : List String), pending.length ≤ fuel →
      resolveLoopF safe errOf fuel nm pending = some (resolveLoop safe errOf nm pending) := by
  intro fuel
  induction fuel with
  | zero =>
    intro pending nm h
    match pending with
    | [] => simp [resolveLoopF, resolveLoop_nil]
    | p :: ps => simp at h
  | succ n ih =>
    intro pending nm h
    match pending with
    | [] => simp [resolveLoopF, resolveLoop_nil]
    | p :: ps =>
      by_cases hs : (resolveRound nm (p :: ps)).1 = p :: ps
      · rw [resolveLoop_stall safe errOf nm (p :: ps) (by simp) hs]
        simp only [resolveLoopF, hs, if_true]
        cases safe <;> simp
      · have hsub := resolveRound_sublist nm (p :: ps)
        have hlen : (resolveRound nm (p :: ps)).1.length ≤ n := by
          rcases lt_or_eq_of_le hsub.length_le with hlt | heq
          · simp only [List.length_cons] at hlt h
            omega
          · exact absurd (hsub.eq_of_length heq) hs
        rw [resolveLoop_progress safe errOf nm (p :: ps) (by simp) hs]
        simp only [resolveLoopF, hs, if_false]
        rw [ih _ _ hlen]

/-- Evaluation bridge: a concrete run of the fuel-indexed loop determines
the value of the fix-point loop. -/
theorem resolveLoop_eval {safe : Bool} {errOf : Rule → List String} {nm : List String}
    {pending : List Rule} {X : List Rule × List String × List String}
    (h : resolveLoopF safe errOf pending.length nm pending = some X) :
    resolveLoop safe errOf nm pending = X := by
  have hc := resolveLoopF_complete safe errOf pending.length pending nm le_rfl
  rw [hc] at h
  exact Option.some.inj h

/-- Evaluation bridge for the private pass of the pipeline. -/
theorem privatePass_eval {safe : Bool} {sigs : List Rule}
    {X : List Rule × List String × List String}
    (h : resolveLoopF safe (fun x => x.depends)
        (sortById (bucketsOf safe sigs).privDep).length (privateSeed safe sigs)
        (sortById (bucketsOf safe sigs).privDep) = some X) :
    privatePass safe sigs = X :=
  resolveLoop_eval h

/-- Evaluation bridge for the general pass of the pipeline. -/
theorem generalPass_eval {safe : Bool} {sigs : List Rule}
    {X : List Rule × List String × List String}
    (h : resolveLoopF safe (fun x => [x.name])
        (sortById (bucketsOf safe sigs).dep).length (privatePass safe sigs).2.1
        (sortById (bucketsOf safe sigs).dep) = some X) :
    generalPass safe sigs = X :=
  resolveLoop_eval h

theorem resolveRound_perm (nm : List String) (l : List Rule) :
    l.Perm ((resolveRound nm l).2.2 ++ (resolveRound nm l).1) := by
  induction l generalizing nm with
  | nil => simp [resolveRound]
  | cons r rs ih =>
    simp only [resolveRound]
    split
    · simpa using (ih (r.name :: nm)).cons r
    · exact ((ih nm).cons r).trans (List.perm_middle.symm)

theorem resolveRound_nm_mem (nm : List String) (l : List Rule) (x : String) :
    x ∈ (resolveRound nm l).2.1 ↔
      x ∈ ((resolveRound nm l).2.2.map (fun r => r.name)) ∨ x ∈ nm := by
  induction l generalizing nm with
  | nil => simp [resolveRound]
  | cons r rs ih =>
    simp only [resolveRound]
    split
    · rw [ih (r.name :: nm)]
      simp only [List.map_cons, List.mem_cons]
      tauto
    · exact ih nm

theorem resolveRound_goodChain (nm : List String) (l : List Rule) :
    goodChain nm (resolveRound nm l).2.2 = true := by
  induction l generalizing nm with
  | nil => simp [resolveRound, goodChain]
  | cons r rs ih =>
    simp only [resolveRound]
    split
    · rename_i hready
      simp only [goodChain, hready, Bool.true_and]
      exact ih (r.name :: nm)
    · exact ih nm

theorem contains_mem {nm : List String} {x : String} :
    nm.contains x = true ↔ x ∈ nm := by
  simp [List.contains, List.elem_iff]

theorem goodChain_mono : ∀ (l : List Rule) (nm nm2 : List String),
    (∀ x, x ∈ nm → x ∈ nm2) → goodChain nm l = true → goodChain nm2 l = true := by
  intro l
  induction l with
  | nil => intro nm nm2 _ _; simp [goodChain]
  | cons r rs ih =>
    intro nm nm2 hsub hg
    simp only [goodChain, Bool.and_eq_true, List.all_eq_true] at hg ⊢
    constructor
    · intro d hd
      have hc := hg.1 d hd
      rw [contains_mem] at hc
      rw [contains_mem]
      exact hsub d hc
    · apply ih (r.name :: nm) (r.name :: nm2)
      · intro x hx
        rcases List.mem_cons.mp hx with h1 | h2
        · exact List.mem_cons.mpr (Or.inl h1)
        · exact List.mem_cons.mpr (Or.inr (hsub x h2))
      · exact hg.2

theorem goodChain_append : ∀ (a b : List Rule) (nm : List String),
    goodChain nm a = true → goodChain (a.map (fun r => r.name) ++ nm) b = true →
    goodChain nm (a ++ b) = true := by
  intro a
  induction a with
  | nil => intro b nm _ hb; simpa using hb
  | cons r a' ih =>
    intro b nm ha hb
    simp only [goodChain, Bool.and_eq_true] at ha ⊢
    refine ⟨ha.1, ?_⟩
    apply ih b (r.name :: nm) ha.2
    apply goodChain_mono b (List.map (fun r => r.name) (r :: a') ++ nm)
    · intro x hx
      simp only [List.map_cons, List.cons_append, List.mem_cons, List.mem_append] at hx ⊢
      tauto
    · exact hb

theorem concatMapS_append (f : Rule → List String) (a b : List Rule) :
    concatMapS f (a ++ b) = concatMapS f a ++ concatMapS f b := by
  induction a with
  | nil => simp [concatMapS]
  | cons r a' ih => simp [concatMapS, ih]

/-- Master decomposition of a fix-point loop run: the output splits as
`g ++ f` where `g` satisfies the dependency-chain property from the seeded
names and `f` is the force-included stalled tail (empty in safe mode); the
scanned list is a permutation of `g ++ f ++ d` where `d` is the dropped
stalled tail (empty in non-safe mode); the error report is the
concatenation of the error policy over the stalled records. -/
theorem resolveLoop_master (safe : Bool) (errOf : Rule → List String) :
    ∀ (fuel : Nat) (pending : List Rule), pending.length ≤ fuel → ∀ (nm : List String),
      ∃ g f d,
        (resolveLoop safe errOf nm pending).1 = g ++ f ∧
        pending.Perm (g ++ f ++ d) ∧
        goodChain nm g = true ∧
        (resolveLoop safe errOf nm pending).2.2 = concatMapS errOf (f ++ d) ∧
        (safe = true → f = []) ∧
        (safe = false → d = []) := by
  intro fuel
  induction fuel with
  | zero =>
    intro pending hlen nm
    match pending with
    | [] =>
      refine ⟨[], [], [], ?_, ?_, ?_, ?_, ?_, ?_⟩ <;>
        simp [resolveLoop_nil, goodChain, concatMapS]
    | p :: ps => simp at hlen
  | succ n ih =>
    intro pending hlen nm
    match pending with
    | [] =>
      refine ⟨[], [], [], ?_, ?_, ?_, ?_, ?_, ?_⟩ <;>
        simp [resolveLoop_nil, goodChain, concatMapS]
    | p :: ps =>
      by_cases hs : (resolveRound nm (p :: ps)).1 = p :: ps
      · -- stalled round: nothing was appended this round
        have hperm := resolveRound_perm nm (p :: ps)
        rw [hs] at hperm
        have happ : (resolveRound nm (p :: ps)).2.2 = [] := by
          have hlen2 := hperm.length_eq
          simp only [List.length_append] at hlen2
          have : (resolveRound nm (p :: ps)).2.2.length = 0 := by omega
          exact List.length_eq_zero.mp this
        rw [resolveLoop_stall safe errOf nm (p :: ps) (by simp) hs]
        cases safe with
        | true =>
          refine ⟨[], [], p :: ps, ?_, ?_, ?_, ?_, ?_, ?_⟩
          · simp [happ]
          · simp
          · simp [goodChain]
          · simp
          · intro; rfl
          · intro hcon; exact absurd hcon (by simp)
        | false =>
          refine ⟨[], p :: ps, [], ?_, ?_, ?_, ?_, ?_, ?_⟩
          · simp [happ]
          · simp
          · simp [goodChain]
          · simp
          · intro hcon; exact absurd hcon (by simp)
          · intro; rfl
      · -- progressing round
        have hsub := resolveRound_sublist nm (p :: ps)
        have hlt : (resolveRound nm (p :: ps)).1.length ≤ n := by
          rcases lt_or_eq_of_le hsub.length_le with hlt | heq
          · simp only [List.length_cons] at hlt hlen
            omega
          · exact absurd (hsub.eq_of_length heq) hs
        obtain ⟨g1, f1, d1, hout1, hperm1, hchain1, herr1, hf1, hd1⟩ :=
          ih (resolveRound nm (p :: ps)).1 hlt (resolveRound nm (p :: ps)).2.1
        rw [resolveLoop_progress safe errOf nm (p :: ps) (by simp) hs]
        refine ⟨(resolveRound nm (p :: ps)).2.2 ++ g1, f1, d1, ?_, ?_, ?_, ?_, hf1, hd1⟩
        · simp [hout1, List.append_assoc]
        · have h1 := resolveRound_perm nm (p :: ps)
          have h2 := hperm1.append_left (resolveRound nm (p :: ps)).2.2
          have h3 := h1.trans h2
          simpa [List.append_assoc] using h3
        · apply goodChain_append _ _ _ (resolveRound_goodChain nm (p :: ps))
          apply goodChain_mono g1 (resolveRound nm (p :: ps)).2.1
          · intro x hx
            have := (resolveRound_nm_mem nm (p :: ps) x).mp hx
            simpa [List.mem_append] using this
          · exact hchain1
        · exact herr1

/-- On a stalled round nothing is appended: the output of the round scan is
empty. -/
theorem stall_app_nil {nm : List String} {pending : List Rule}
    (hs : (resolveRound nm pending).1 = pending) :
    (resolveRound nm pending).2.2 = [] := by
  have hperm := resolveRound_perm nm pending
  rw [hs] at hperm
  have hlen2 := hperm.length_eq
  simp only [List.length_append] at hlen2
  have : (resolveRound nm pending).2.2.length = 0 := by omega
  exact List.length_eq_zero.mp this

theorem concatMapS_singleton (g : Rule → String) (l : List Rule) :
    concatMapS (fun x => [g x]) l = l.map g := by
  induction l with
  | nil => simp [concatMapS]
  | cons r rs ih => simp [concatMapS, ih]

/-- Membership is preserved through the stable sort. -/
theorem insertById_perm (s : Rule) (l : List Rule) :
    (insertById s l).Perm (s :: l) := by
  induction l with
  | nil => simp [insertById]
  | cons t ts ih =>
    simp only [insertById]
    split
    · exact List.Perm.refl _
    · exact (ih.cons t).trans (List.Perm.swap s t ts)

theorem sortById_perm (l : List Rule) : (sortById l).Perm l := by
  induction l with
  | nil => simp [sortById]
  | cons s ss ih => exact (insertById_perm s (sortById ss)).trans (ih.cons s)

theorem mem_sortById {r : Rule} {l : List Rule} : r ∈ sortById l ↔ r ∈ l :=
  (sortById_perm l).mem_iff

/-- Every record the loop appends comes from its pending list. -/
theorem resolveLoop_out_subset (safe : Bool) (errOf : Rule → List String)
    (nm : List String) (pending : List Rule) :
    ∀ r ∈ (resolveLoop safe errOf nm pending).1, r ∈ pending := by
  obtain ⟨g, f, d, hout, hperm, -, -, -, -⟩ :=
    resolveLoop_master safe errOf pending.length pending le_rfl nm
  intro r hr
  rw [hout] at hr
  apply hperm.symm.subset
  simp only [List.append_assoc, List.mem_append] at hr ⊢
  tauto

/-- Example rule used by the C1 counterexample: a standard rule depending
on a name that no record carries. -/
def cxA : Rule := ⟨"org_000010", 1, "A", "rule", ["B"]⟩

/-- Claim C1 counterexample: with `safe = false` and an empty seeded name
set, a record depending on the missing name "B" is force-included, so the
loop output is a permutation of the whole input but violates the
dependency-ordering property the claim asserts for every safe flag. -/
theorem spec_c1_counterexample :
    (resolveLoop false (fun x => [x.name]) [] [cxA]).1 = [cxA] ∧
    goodChain [] (resolveLoop false (fun x => [x.name]) [] [cxA]).1 = false := by
  have h : resolveLoop false (fun x => [x.name]) [] [cxA] = ([cxA], ["A"], ["A"]) :=
    resolveLoop_eval (by decide)
  rw [h]
  exact ⟨rfl, by decide⟩

/-- Claim C1 (amended): for every seeded name set, dep-bucket input and
safe flag, the loop output splits as `g ++ f` where `g` satisfies the
dependency-ordering property (each record's dependency names occur among
the names of records preceding it or among the seeded names) and `f` is
the force-included stalled tail, empty in safe mode; the input is a
permutation of the output plus a dropped tail `d`, empty in non-safe
mode. -/
theorem spec_c1_perm_chain (safe : Bool) (errOf : Rule → List String)
    (nm : List String) (pending : List Rule) :
    ∃ g f d,
      (resolveLoop safe errOf nm pending).1 = g ++ f ∧
      pending.Perm (g ++ f ++ d) ∧
      goodChain nm g = true ∧
      (safe = true → f = []) ∧
      (safe = false → d = []) := by
  obtain ⟨g, f, d, h1, h2, h3, -, h5, h6⟩ :=
    resolveLoop_master safe errOf pending.length pending le_rfl nm
  exact ⟨g, f, d, h1, h2, h3, h5, h6⟩

/-- Example rule used by the C2 counterexample: a standard rule depending
on the missing name "B". -/
def c2a : Rule := ⟨"org_000004", 1, "A", "rule", ["B"]⟩

/-- Claim C2 counterexample: a standard record named "A" depending on the
missing name "B" contributes its own name "A", not the missing dependency
name "B", to the unresolved-dependency report. -/
theorem spec_c2_counterexample :
    (downloadCore true [c2a]).2.2 = ["A"] ∧
    ¬ ("B" ∈ (downloadCore true [c2a]).2.2) := by
  have hp : privatePass true [c2a] = ([], privateSeed true [c2a], []) :=
    privatePass_eval (by decide)
  have hg : generalPass true [c2a] = ([], (privatePass true [c2a]).2.1, ["A"]) := by
    apply generalPass_eval
    rw [hp]
    decide
  refine ⟨?_, ?_⟩ <;> simp [downloadCore, hp, hg]

/-- Claim C2 (amended): a stalled record contributes, in the private pass,
all of its dependency names (satisfied or not, never its own name) and,
in the general pass, its own name (never its dependency names) to the
error report. -/
theorem spec_c2_error_report (safe : Bool) (nm : List String) (pending : List Rule)
    (hne : pending ≠ []) (hs : (resolveRound nm pending).1 = pending) :
    (resolveLoop safe (fun x => x.depends) nm pending).2.2
        = concatMapS (fun x => x.depends) pending ∧
    (resolveLoop safe (fun x => [x.name]) nm pending).2.2
        = pending.map (fun x => x.name) := by
  constructor
  · rw [resolveLoop_stall safe _ nm pending hne hs]
    cases safe <;> simp
  · rw [resolveLoop_stall safe _ nm pending hne hs]
    cases safe <;> simp [concatMapS_singleton]

/-- Example rule used by the C2 witness: a rule depending on the missing
name "Z". -/
def c2w : Rule := ⟨"org_000011", 1, "W", "rule", ["Z"]⟩

/-- Witness for the amended C2: at a concrete stalled input the private
pass reports the dependency name "Z" and the general pass reports the
record's own name "W". -/
theorem spec_c2_error_report_witness :
    (resolveLoop true (fun x => x.depends) [] [c2w]).2.2 = ["Z"] ∧
    (resolveLoop true (fun x => [x.name]) [] [c2w]).2.2 = ["W"] := by
  have h := spec_c2_error_report true [] [c2w] (by decide) (by decide)
  obtain ⟨h1, h2⟩ := h
  refine ⟨?_, ?_⟩
  · rw [h1]; decide
  · rw [h2]; decide

/-- Claim C5: on a no-progress round the remaining records are dropped
entirely in safe mode; in non-safe mode they are all appended and their
names all enter the resolved-name set. -/
theorem spec_c5_stall_policy (safe : Bool) (errOf : Rule → List String)
    (nm : List String) (pending : List Rule) (hne : pending ≠ [])
    (hs : (resolveRound nm pending).1 = pending) :
    (safe = true → (resolveLoop safe errOf nm pending).1 = []) ∧
    (safe = false → (resolveLoop safe errOf nm pending).1 = pending ∧
      ∀ r ∈ pending, r.name ∈ (resolveLoop safe errOf nm pending).2.1) := by
  have happ := stall_app_nil hs
  rw [resolveLoop_stall safe errOf nm pending hne hs]
  constructor
  · intro hsafe
    subst hsafe
    simp [happ]
  · intro hsafe
    subst hsafe
    simp only [Bool.false_eq_true, if_false, happ, List.nil_append]
    refine ⟨by simp, ?_⟩
    intro r hr
    simp only [List.mem_append, List.mem_map]
    exact Or.inr ⟨r, hr, rfl⟩

/-- Example rule used by the C5 witness. -/
def c5w : Rule := ⟨"org_000012", 1, "V", "rule", ["Q"]⟩

/-- Witness for C5: in non-safe mode a concrete stalled record is appended
to the output and its name is resolved. -/
theorem spec_c5_stall_policy_witness :
    (resolveLoop false (fun x => x.depends) [] [c5w]).1 = [c5w] ∧
    c5w.name ∈ (resolveLoop false (fun x => x.depends) [] [c5w]).2.1 := by
  have h := spec_c5_stall_policy false (fun x => x.depends) [] [c5w]
    (by decide) (by decide)
  obtain ⟨-, h2⟩ := h
  obtain ⟨ha, hb⟩ := h2 rfl
  exact ⟨ha, hb c5w (by simp)⟩

/-- Claim C8: both fix-point loops terminate — with one unit of fuel per
pending record the fuel-indexed loop always returns, and with the same
result as the fix-point loop, for either pass's error policy. -/
theorem spec_c8_termination (safe : Bool) (errOf : Rule → List String)
    (nm : List String) (pending : List Rule) :
    resolveLoopF safe errOf pending.length nm pending
      = some (resolveLoop safe errOf nm pending) :=
  resolveLoopF_complete safe errOf pending.length pending nm le_rfl

/-- The three records of claim C3: all named "X", seen in revision order
1, 3, 2. -/
def c3r1 : Rule := ⟨"org_000001", 1, "X", "rule", []⟩

def c3r2 : Rule := ⟨"org_000002", 3, "X", "rule", []⟩

def c3r3 : Rule := ⟨"org_000003", 2, "X", "rule", []⟩

/-- Claim C3 counterexample: on R1(rev 1), R2(rev 3), R3(rev 2) all named
"X", the duplicate report contains a single entry (from R3 only), not the
two entries the claim asserts: R1 is displaced by the higher-revision R2
without being reported. -/
theorem spec_c3_counterexample :
    (downloadCore true [c3r1, c3r2, c3r3]).2.1 = ["X"] ∧
    ¬ (downloadCore true [c3r1, c3r2, c3r3]).2.1.length = 2 := by
  constructor <;> decide

/-- Claim C3 (amended): duplicate resolution keeps R2 (revision 3) as the
sole holder of "X" and the duplicate report contains exactly one entry,
R3's name — a record displaced by an equal-or-higher revision is not
reported; only an incoming strictly-lower-revision record is. -/
theorem spec_c3_duplicates :
    downloadCore true [c3r1, c3r2, c3r3] = ([c3r2], ["X"], []) := by
  have hp : privatePass true [c3r1, c3r2, c3r3]
      = ([], privateSeed true [c3r1, c3r2, c3r3], []) :=
    privatePass_eval (by decide)
  have hg : generalPass true [c3r1, c3r2, c3r3]
      = ([], (privatePass true [c3r1, c3r2, c3r3]).2.1, []) := by
    apply generalPass_eval
    rw [hp]
    decide
  simp [downloadCore, bundleList, hp, hg]
  decide

/-- The invariant tying the partitioning loop's `name_map` to its buckets:
a name is mapped iff it names a record of the `global`, `private_no_dep`
or `no_dep` bucket. -/
def SeedInv (b : Buckets) : Prop :=
  ∀ x, x ∈ b.nm ↔
    x ∈ (b.glob.map (fun r => r.name)) ∨ x ∈ (b.privNo.map (fun r => r.name))
      ∨ x ∈ (b.noDep.map (fun r => r.name))

theorem seedInv_step (b : Buckets) (s : Rule) (hb : SeedInv b) :
    SeedInv (partitionStep b s) := by
  intro x
  have hx := hb x
  by_cases hg : s.rtype.startsWith ("global") = true
  · simp only [partitionStep, hg, Bool.false_eq_true, if_true, if_false]
    rw [List.mem_cons, hx]
    simp only [List.map_append, List.mem_append, List.map_cons, List.map_nil,
      List.mem_singleton]
    constructor
    · rintro (h | h | h | h)
      exacts [Or.inl (Or.inr h), Or.inl (Or.inl h), Or.inr (Or.inl h), Or.inr (Or.inr h)]
    · rintro ((h | h) | h | h)
      exacts [Or.inr (Or.inl h), Or.inl h, Or.inr (Or.inr (Or.inl h)),
        Or.inr (Or.inr (Or.inr h))]
  · by_cases hp : s.rtype.startsWith ("private") = true
    · by_cases hd : s.depends = []
      · simp only [partitionStep, hg, hp, hd, Bool.false_eq_true, if_true, if_false]
        rw [List.mem_cons, hx]
        simp only [List.map_append, List.mem_append, List.map_cons, List.map_nil,
          List.mem_singleton]
        constructor
        · rintro (h | h | h | h)
          exacts [Or.inr (Or.inl (Or.inr h)), Or.inl h, Or.inr (Or.inl (Or.inl h)),
            Or.inr (Or.inr h)]
        · rintro (h | (h | h) | h)
          exacts [Or.inr (Or.inl h), Or.inr (Or.inr (Or.inl h)), Or.inl h,
            Or.inr (Or.inr (Or.inr h))]
      · simp only [partitionStep, hg, hp, hd, Bool.false_eq_true, if_true, if_false]
        exact hx
    · by_cases hd : s.depends = []
      · simp only [partitionStep, hg, hp, hd, Bool.false_eq_true, if_true, if_false]
        rw [List.mem_cons, hx]
        simp only [List.map_append, List.mem_append, List.map_cons, List.map_nil,
          List.mem_singleton]
        constructor
        · rintro (h | h | h | h)
          exacts [Or.inr (Or.inr (Or.inr h)), Or.inl h, Or.inr (Or.inl h),
            Or.inr (Or.inr (Or.inl h))]
        · rintro (h | h | h | h)
          exacts [Or.inr (Or.inl h), Or.inr (Or.inr (Or.inl h)),
            Or.inr (Or.inr (Or.inr h)), Or.inl h]
      · simp only [partitionStep, hg, hp, hd, Bool.false_eq_true, if_true, if_false]
        exact hx

theorem seedInv_fold (l : List Rule) :
    ∀ b : Buckets, SeedInv b → SeedInv (l.foldl partitionStep b) := by
  induction l with
  | nil => intro b hb; simpa using hb
  | cons s ss ih => intro b hb; simpa [List.foldl] using ih _ (seedInv_step b s hb)

theorem seedInv_empty : SeedInv emptyBuckets := by
  intro x
  simp [emptyBuckets]

/-- Example rule used by the C4 counterexample: a standard rule with no
dependencies. -/
def c4n : Rule := ⟨"org_000005", 1, "N", "rule", []⟩

/-- Claim C4 counterexample: the name "N" of a standard no-dependency
record is already in the resolved-name seed when the private pass starts,
even though the global and private_no_dep buckets are empty. -/
theorem spec_c4_counterexample :
    ("N" ∈ privateSeed false [c4n]) ∧ (bucketsOf false [c4n]).glob = []
      ∧ (bucketsOf false [c4n]).privNo = [] := by
  decide

/-- Claim C4 (amended): the private pass starts with a resolved-name set
equal to exactly the names of the records of the global, private_no_dep
and no_dep buckets. -/
theorem spec_c4_private_seed (safe : Bool) (sigs : List Rule) (x : String) :
    x ∈ privateSeed safe sigs ↔
      x ∈ ((bucketsOf safe sigs).glob.map (fun r => r.name))
        ∨ x ∈ ((bucketsOf safe sigs).privNo.map (fun r => r.name))
        ∨ x ∈ ((bucketsOf safe sigs).noDep.map (fun r => r.name)) :=
  seedInv_fold (preDedup safe sigs).1 emptyBuckets seedInv_empty x

/-- Claim C7: with an unchanged fingerprint `k`, two successive runs of
the cache orchestration return identical bytes and the second run is a
cache hit that performs no recomputation, whatever the initial cache
state. -/
theorem spec_c7_cache_idempotent (computeBytes k : String)
    (st0 : List (String × String)) :
    (downloadOnce computeBytes k (downloadOnce computeBytes k st0).2.1).1
      = (downloadOnce computeBytes k st0).1 ∧
    (downloadOnce computeBytes k (downloadOnce computeBytes k st0).2.1).2.2
      = false := by
  cases hg : cacheGet st0 k with
  | some s => simp [downloadOnce, hg]
  | none => simp [downloadOnce, hg, cacheSave, cacheGet]

theorem mapGet_mapSet_self (m : List (String × Rule)) (k : String) (v : Rule) :
    mapGet (mapSet m k v) k = some v := by
  induction m with
  | nil => simp [mapSet, mapGet]
  | cons p rest ih =>
    obtain ⟨k0, v0⟩ := p
    by_cases hk : k0 = k
    · simp [mapSet, hk, mapGet]
    · simp [mapSet, hk, mapGet, ih]

theorem mapGet_mapSet_ne (m : List (String × Rule)) (k k2 : String) (v : Rule)
    (hne : ¬ k = k2) : mapGet (mapSet m k v) k2 = mapGet m k2 := by
  have hne2 : ¬ k2 = k := fun h => hne h.symm
  induction m with
  | nil => simp [mapSet, mapGet, hne, hne2]
  | cons p rest ih =>
    obtain ⟨k0, v0⟩ := p
    by_cases hk : k0 = k
    · subst hk
      simp [mapSet, mapGet, hne, hne2]
    · by_cases hk2 : k0 = k2
      · subst hk2
        simp [mapSet, hk, mapGet]
      · simp [mapSet, hk, mapGet, hk2, ih]

theorem mapGet_mem {m : List (String × Rule)} {k : String} {v : Rule}
    (h : mapGet m k = some v) : (k, v) ∈ m := by
  induction m with
  | nil => simp [mapGet] at h
  | cons p rest ih =>
    obtain ⟨k0, v0⟩ := p
    by_cases hk : k0 = k
    · subst hk
      simp [mapGet] at h
      subst h
      exact List.mem_cons_self _ _
    · simp only [mapGet, hk, if_false] at h
      exact List.mem_cons_of_mem _ (ih h)

/-- The duplicate-resolution winner for a name: it occurs in the input,
carries the maximal revision among records of that name, and is the last
occurrence of that maximal revision in input order. -/
def HolderSpec (l : List Rule) (n : String) (r : Rule) : Prop :=
  ∃ l1 l2, l = l1 ++ r :: l2 ∧ r.name = n ∧
    (∀ s ∈ l, s.name = n → s.rule_version ≤ r.rule_version) ∧
    (∀ s ∈ l2, s.name = n → s.rule_version < r.rule_version)

theorem holderSpec_extend {l : List Rule} {n : String} {r s : Rule}
    (hs : ¬ s.name = n) (h : HolderSpec l n r) : HolderSpec (l ++ [s]) n r := by
  obtain ⟨l1, l2, hsplit, hname, hmax, hlast⟩ := h
  refine ⟨l1, l2 ++ [s], ?_, hname, ?_, ?_⟩
  · rw [hsplit]
    simp
  · intro t ht htn
    rcases List.mem_append.mp ht with h1 | h2
    · exact hmax t h1 htn
    · rw [List.mem_singleton.mp h2] at htn
      exact absurd htn hs
  · intro t ht htn
    rcases List.mem_append.mp ht with h1 | h2
    · exact hlast t h1 htn
    · rw [List.mem_singleton.mp h2] at htn
      exact absurd htn hs

/-- Fold invariant of safe-mode duplicate resolution, per name `n`: either
no record named `n` has been seen and the map has no entry for `n`, or the
map's entry for `n` is the current winner in the sense of `HolderSpec`. -/
theorem dedup_holder (n : String) (hn : ¬ n = "") (l : List Rule) :
    (mapGet (l.foldl dedupStep ([], [])).1 n = none ∧ ∀ s ∈ l, ¬ s.name = n) ∨
    (∃ r, mapGet (l.foldl dedupStep ([], [])).1 n = some r ∧ HolderSpec l n r) := by
  induction l using List.reverseRecOn with
  | nil =>
    left
    exact ⟨rfl, by simp⟩
  | append_singleton l s ih =>
    rw [List.foldl_append]
    simp only [List.foldl_cons, List.foldl_nil]
    by_cases hse : s.name = ""
    · have hstep : dedupStep (l.foldl dedupStep ([], [])) s = l.foldl dedupStep ([], []) := by
        simp [dedupStep, hse]
      rw [hstep]
      have hsn : ¬ s.name = n := by
        rw [hse]
        exact fun h => hn h.symm
      rcases ih with ⟨hget, hall⟩ | ⟨r, hget, hspec⟩
      · left
        refine ⟨hget, ?_⟩
        intro t ht
        rcases List.mem_append.mp ht with h1 | h2
        · exact hall t h1
        · rw [List.mem_singleton.mp h2]
          exact hsn
      · right
        exact ⟨r, hget, holderSpec_extend hsn hspec⟩
    · by_cases hsn : s.name = n
      · rcases ih with ⟨hget, hall⟩ | ⟨r, hget, hspec⟩
        · have hstep : dedupStep (l.foldl dedupStep ([], [])) s
              = (mapSet (l.foldl dedupStep ([], [])).1 s.name s,
                 (l.foldl dedupStep ([], [])).2) := by
            simp only [dedupStep, hse, if_false]
            rw [hsn, hget]
            simp
          rw [hstep]
          right
          refine ⟨s, ?_, ?_⟩
          · rw [hsn, mapGet_mapSet_self]
          · refine ⟨l, [], by simp, hsn, ?_, by simp⟩
            intro t ht htn
            rcases List.mem_append.mp ht with h1 | h2
            · exact absurd htn (hall t h1)
            · rw [List.mem_singleton.mp h2]
        · by_cases hlt : s.rule_version < r.rule_version
          · have hstep : dedupStep (l.foldl dedupStep ([], [])) s
                = ((l.foldl dedupStep ([], [])).1,
                   (l.foldl dedupStep ([], [])).2 ++ [s.name]) := by
              simp only [dedupStep, hse, if_false]
              rw [hsn, hget]
              simp [hlt]
            rw [hstep]
            right
            obtain ⟨l1, l2, hsplit, hname, hmax, hlast⟩ := hspec
            refine ⟨r, hget, l1, l2 ++ [s], ?_, hname, ?_, ?_⟩
            · rw [hsplit]
              simp
            · intro t ht htn
              rcases List.mem_append.mp ht with h1 | h2
              · exact hmax t h1 htn
              · rw [List.mem_singleton.mp h2]
                exact le_of_lt hlt
            · intro t ht htn
              rcases List.mem_append.mp ht with h1 | h2
              · exact hlast t h1 htn
              · rw [List.mem_singleton.mp h2]
                exact hlt
          · have hstep : dedupStep (l.foldl dedupStep ([], [])) s
                = (mapSet (l.foldl dedupStep ([], [])).1 s.name s,
                   (l.foldl dedupStep ([], [])).2) := by
              simp only [dedupStep, hse, if_false]
              rw [hsn, hget]
              simp [hlt]
            rw [hstep]
            right
            refine ⟨s, by rw [hsn, mapGet_mapSet_self], l, [], by simp, hsn, ?_, by simp⟩
            intro t ht htn
            rcases List.mem_append.mp ht with h1 | h2
            · obtain ⟨l1, l2, hsplit, hname, hmax, hlast⟩ := hspec
              exact le_trans (hmax t h1 htn) (not_lt.mp hlt)
            · rw [List.mem_singleton.mp h2]
      · have hget_eq : mapGet (dedupStep (l.foldl dedupStep ([], [])) s).1 n
            = mapGet (l.foldl dedupStep ([], [])).1 n := by
          simp only [dedupStep, hse, if_false]
          split
          · rfl
          · exact mapGet_mapSet_ne _ s.name n s hsn
        rcases ih with ⟨hget, hall⟩ | ⟨r, hget, hspec⟩
        · left
          refine ⟨by rw [hget_eq]; exact hget, ?_⟩
          intro t ht
          rcases List.mem_append.mp ht with h1 | h2
          · exact hall t h1
          · rw [List.mem_singleton.mp h2]
            exact hsn
        · right
          exact ⟨r, by rw [hget_eq]; exact hget, holderSpec_extend hsn hspec⟩

/-- Claim C6: in safe mode, for every rule name occurring in the input
(under a non-empty name), the surviving record in the duplicate-resolution
map is one of the records of that name, carries the maximal revision among
them, and is the last-seen record having that maximal revision (every
later record of the same name has a strictly lower revision); in
particular a record with strictly lower revision than the current holder
never replaces it. -/
theorem spec_c6_dedup_max (l : List Rule) (n : String) (hn : ¬ n = "")
    (hocc : ∃ s, s ∈ l ∧ s.name = n) :
    ∃ r, mapGet (l.foldl dedupStep ([], [])).1 n = some r ∧ r ∈ (dedup l).1 ∧
      ∃ l1 l2, l = l1 ++ r :: l2 ∧ r.name = n ∧
        (∀ s ∈ l, s.name = n → s.rule_version ≤ r.rule_version) ∧
        (∀ s ∈ l2, s.name = n → s.rule_version < r.rule_version) := by
  rcases dedup_holder n hn l with ⟨hget, hall⟩ | ⟨r, hget, hspec⟩
  · obtain ⟨s, hs, hsn⟩ := hocc
    exact absurd hsn (hall s hs)
  · refine ⟨r, hget, ?_, hspec⟩
    have hmem := mapGet_mem hget
    simp only [dedup]
    exact List.mem_map.mpr ⟨(n, r), hmem, rfl⟩

/-- Example rules for the C6 witness: two records named "Y", revisions 1
then 2. -/
def c6a : Rule := ⟨"org_000013", 1, "Y", "rule", []⟩

def c6b : Rule := ⟨"org_000014", 2, "Y", "rule", []⟩

/-- Witness for C6 at a concrete input: the name "Y" occurs, and the
surviving record satisfies the maximal-revision / last-seen
characterisation. -/
theorem spec_c6_dedup_max_witness :
    ∃ r, mapGet ([c6a, c6b].foldl dedupStep ([], [])).1 ("Y") = some r ∧
      r ∈ (dedup [c6a, c6b]).1 ∧
      ∃ l1 l2, [c6a, c6b] = l1 ++ r :: l2 ∧ r.name = "Y" ∧
        (∀ s ∈ [c6a, c6b], s.name = "Y" → s.rule_version ≤ r.rule_version) ∧
        (∀ s ∈ l2, s.name = "Y" → s.rule_version < r.rule_version) :=
  spec_c6_dedup_max [c6a, c6b] ("Y") (by decide) ⟨c6a, by simp, rfl⟩

theorem forall_mem_append_single {P : Rule → Prop} {l : List Rule} {s : Rule}
    (hl : ∀ r ∈ l, P r) (hs : P s) : ∀ r ∈ l ++ [s], P r := by
  intro r hr
  rcases List.mem_append.mp hr with h1 | h2
  · exact hl r h1
  · rw [List.mem_singleton.mp h2]
    exact hs

/-- Bucket classification invariant: global-bucket records have a type
starting with "global"; records of every other bucket do not. -/
def TypeInv (b : Buckets) : Prop :=
  (∀ r ∈ b.glob, r.rtype.startsWith ("global") = true) ∧
  (∀ r ∈ b.privNo, r.rtype.startsWith ("global") = false) ∧
  (∀ r ∈ b.privDep, r.rtype.startsWith ("global") = false) ∧
  (∀ r ∈ b.noDep, r.rtype.startsWith ("global") = false) ∧
  (∀ r ∈ b.dep, r.rtype.startsWith ("global") = false)

theorem typeInv_step (b : Buckets) (s : Rule) (hb : TypeInv b) :
    TypeInv (partitionStep b s) := by
  obtain ⟨h1, h2, h3, h4, h5⟩ := hb
  by_cases hg : s.rtype.startsWith ("global") = true
  · refine ⟨?_, ?_, ?_, ?_, ?_⟩ <;>
      simp only [partitionStep, hg, Bool.false_eq_true, if_true, if_false]
    · exact forall_mem_append_single h1 hg
    · exact h2
    · exact h3
    · exact h4
    · exact h5
  · have hgf : s.rtype.startsWith ("global") = false := eq_false_of_ne_true hg
    by_cases hp : s.rtype.startsWith ("private") = true
    · by_cases hd : s.depends = []
      · refine ⟨?_, ?_, ?_, ?_, ?_⟩ <;>
          simp only [partitionStep, hg, hp, hd, Bool.false_eq_true, if_true, if_false]
        · exact h1
        · exact forall_mem_append_single h2 hgf
        · exact h3
        · exact h4
        · exact h5
      · refine ⟨?_, ?_, ?_, ?_, ?_⟩ <;>
          simp only [partitionStep, hg, hp, hd, Bool.false_eq_true, if_true, if_false]
        · exact h1
        · exact h2
        · exact forall_mem_append_single h3 hgf
        · exact h4
        · exact h5
    · by_cases hd : s.depends = []
      · refine ⟨?_, ?_, ?_, ?_, ?_⟩ <;>
          simp only [partitionStep, hg, hp, hd, Bool.false_eq_true, if_true, if_false]
        · exact h1
        · exact h2
        · exact h3
        · exact forall_mem_append_single h4 hgf
        · exact h5
      · refine ⟨?_, ?_, ?_, ?_, ?_⟩ <;>
          simp only [partitionStep, hg, hp, hd, Bool.false_eq_true, if_true, if_false]
        · exact h1
        · exact h2
        · exact h3
        · exact h4
        · exact forall_mem_append_single h5 hgf

theorem typeInv_fold (l : List Rule) :
    ∀ b : Buckets, TypeInv b → TypeInv (l.foldl partitionStep b) := by
  induction l with
  | nil => intro b hb; simpa using hb
  | cons s ss ih => intro b hb; simpa [List.foldl] using ih _ (typeInv_step b s hb)

theorem typeInv_empty : TypeInv emptyBuckets := by
  refine ⟨?_, ?_, ?_, ?_, ?_⟩ <;> simp [emptyBuckets]

/-- Claim C9: for every input and safe flag the bundle splits as `g ++ rest`
where `g` holds exactly the records of globally-typed visibility and
`rest` none — so every global-bucket record precedes every private and
standard record in bundle order, regardless of dependencies. -/
theorem spec_c9_global_first (safe : Bool) (sigs : List Rule) :
    ∃ g rest, (downloadCore safe sigs).1 = g ++ rest ∧
      (∀ r ∈ g, r.rtype.startsWith ("global") = true) ∧
      (∀ r ∈ rest, r.rtype.startsWith ("global") = false) := by
  obtain ⟨h1, h2, h3, h4, h5⟩ :=
    typeInv_fold (preDedup safe sigs).1 emptyBuckets typeInv_empty
  refine ⟨sortById (bucketsOf safe sigs).glob,
    sortById (bucketsOf safe sigs).privNo ++ ((privatePass safe sigs).1
      ++ (sortById (bucketsOf safe sigs).noDep ++ (generalPass safe sigs).1)),
    ?_, ?_, ?_⟩
  · simp [downloadCore, bundleList, List.append_assoc]
  · intro r hr
    exact h1 r (mem_sortById.mp hr)
  · intro r hr
    simp only [List.mem_append] at hr
    rcases hr with h | h | h | h
    · exact h2 r (mem_sortById.mp h)
    · have hm := resolveLoop_out_subset safe (fun x => x.depends)
        (privateSeed safe sigs) (sortById (bucketsOf safe sigs).privDep) r h
      exact h3 r (mem_sortById.mp hm)
    · exact h4 r (mem_sortById.mp h)
    · have hm := resolveLoop_out_subset safe (fun x => [x.name])
        (privatePass safe sigs).2.1 (sortById (bucketsOf safe sigs).dep) r h
      exact h5 r (mem_sortById.mp hm)

/-- Skipping falsy-named records: the duplicate-resolution fold ignores
records with an absent/empty name, so it computes the same state on the
input with those records filtered out. -/
theorem dedup_filter (l : List Rule) :
    ∀ acc : List (String × Rule) × List String,
      l.foldl dedupStep acc
        = (l.filter (fun s => !(s.name == ""))).foldl dedupStep acc := by
  induction l with
  | nil => intro acc; rfl
  | cons s ss ih =>
    intro acc
    by_cases hse : s.name = ""
    · have hb : (!(s.name == "")) = false := by simp [hse]
      have hstep : dedupStep acc s = acc := by simp [dedupStep, hse]
      simp only [List.foldl_cons, List.filter_cons, hb, if_false, hstep]
      exact ih acc
    · have hb : (!(s.name == "")) = true := by simp [hse]
      simp only [List.foldl_cons, List.filter_cons, hb, if_true]
      exact ih (dedupStep acc s)

theorem mapSet_mem {m : List (String × Rule)} {k : String} {v : Rule}
    {p : String × Rule} (h : p ∈ mapSet m k v) : p ∈ m ∨ p = (k, v) := by
  induction m with
  | nil =>
    simp only [mapSet, List.mem_singleton] at h
    exact Or.inr h
  | cons q rest ih =>
    obtain ⟨k0, v0⟩ := q
    by_cases hk : k0 = k
    · simp only [mapSet, hk, if_true] at h
      rcases List.mem_cons.mp h with h1 | h2
      · exact Or.inr h1
      · exact Or.inl (List.mem_cons_of_mem _ h2)
    · simp only [mapSet, hk, if_false] at h
      rcases List.mem_cons.mp h with h1 | h2
      · exact Or.inl (h1 ▸ List.mem_cons_self _ _)
      · rcases ih h2 with h3 | h3
        · exact Or.inl (List.mem_cons_of_mem _ h3)
        · exact Or.inr h3

/-- One duplicate-resolution step preserves: all map entries carry
non-empty names and all reported duplicate names are non-empty. -/
theorem dedupStep_inv {acc : List (String × Rule) × List String} {s : Rule}
    (h1 : ∀ p ∈ acc.1, ¬ p.2.name = "") (h2 : ∀ x ∈ acc.2, ¬ x = "") :
    (∀ p ∈ (dedupStep acc s).1, ¬ p.2.name = "") ∧
    (∀ x ∈ (dedupStep acc s).2, ¬ x = "") := by
  by_cases hse : s.name = ""
  · simp only [dedupStep, hse, if_true]
    exact ⟨h1, h2⟩
  · simp only [dedupStep, hse, if_false]
    split
    · refine ⟨h1, ?_⟩
      intro x hx
      rcases List.mem_append.mp hx with ha | hb
      · exact h2 x ha
      · rw [List.mem_singleton.mp hb]
        exact hse
    · refine ⟨?_, h2⟩
      intro p hp
      rcases mapSet_mem hp with ha | hb
      · exact h1 p ha
      · rw [hb]
        exact hse

/-- All rule entries of the duplicate-resolution state have non-empty
names, and so do all reported duplicate names. -/
theorem dedup_entries (l : List Rule) :
    ∀ acc : List (String × Rule) × List String,
      (∀ p ∈ acc.1, ¬ p.2.name = "") → (∀ x ∈ acc.2, ¬ x = "") →
      (∀ p ∈ (l.foldl dedupStep acc).1, ¬ p.2.name = "") ∧
      (∀ x ∈ (l.foldl dedupStep acc).2, ¬ x = "") := by
  induction l with
  | nil => intro acc h1 h2; exact ⟨h1, h2⟩
  | cons s ss ih =>
    intro acc h1 h2
    simp only [List.foldl_cons]
    obtain ⟨g1, g2⟩ := dedupStep_inv h1 h2
    exact ih (dedupStep acc s) g1 g2

/-- Every record surviving duplicate resolution has a non-empty name. -/
theorem dedup_names (l : List Rule) : ∀ r ∈ (dedup l).1, ¬ r.name = "" := by
  intro r hr
  simp only [dedup, List.mem_map] at hr
  obtain ⟨p, hp, hpr⟩ := hr
  have h := (dedup_entries l ([], []) (by simp) (by simp)).1 p hp
  rw [hpr] at h
  exact h

/-- No reported duplicate name is empty. -/
theorem dedup_dup_names (l : List Rule) : ∀ x ∈ (dedup l).2, ¬ x = "" := by
  intro x hx
  exact (dedup_entries l ([], []) (by simp) (by simp)).2 x hx

theorem partitionStep_mem {b : Buckets} {s r : Rule}
    (h : r ∈ (partitionStep b s).glob ∨ r ∈ (partitionStep b s).privNo ∨
      r ∈ (partitionStep b s).privDep ∨ r ∈ (partitionStep b s).noDep ∨
      r ∈ (partitionStep b s).dep) :
    (r ∈ b.glob ∨ r ∈ b.privNo ∨ r ∈ b.privDep ∨ r ∈ b.noDep ∨ r ∈ b.dep)
      ∨ r = s := by
  by_cases hg : s.rtype.startsWith ("global") = true
  · simp only [partitionStep, hg, Bool.false_eq_true, if_true, if_false] at h
    rcases h with h | h | h | h | h
    · rcases List.mem_append.mp h with h1 | h2
      · exact Or.inl (Or.inl h1)
      · exact Or.inr (List.mem_singleton.mp h2)
    · exact Or.inl (Or.inr (Or.inl h))
    · exact Or.inl (Or.inr (Or.inr (Or.inl h)))
    · exact Or.inl (Or.inr (Or.inr (Or.inr (Or.inl h))))
    · exact Or.inl (Or.inr (Or.inr (Or.inr (Or.inr h))))
  · by_cases hp : s.rtype.startsWith ("private") = true
    · by_cases hd : s.depends = []
      · simp only [partitionStep, hg, hp, hd, Bool.false_eq_true, if_true, if_false] at h
        rcases h with h | h | h | h | h
        · exact Or.inl (Or.inl h)
        · rcases List.mem_append.mp h with h1 | h2
          · exact Or.inl (Or.inr (Or.inl h1))
          · exact Or.inr (List.mem_singleton.mp h2)
        · exact Or.inl (Or.inr (Or.inr (Or.inl h)))
        · exact Or.inl (Or.inr (Or.inr (Or.inr (Or.inl h))))
        · exact Or.inl (Or.inr (Or.inr (Or.inr (Or.inr h))))
      · simp only [partitionStep, hg, hp, hd, Bool.false_eq_true, if_true, if_false] at h
        rcases h with h | h | h | h | h
        · exact Or.inl (Or.inl h)
        · exact Or.inl (Or.inr (Or.inl h))
        · rcases List.mem_append.mp h with h1 | h2
          · exact Or.inl (Or.inr (Or.inr (Or.inl h1)))
          · exact Or.inr (List.mem_singleton.mp h2)
        · exact Or.inl (Or.inr (Or.inr (Or.inr (Or.inl h))))
        · exact Or.inl (Or.inr (Or.inr (Or.inr (Or.inr h))))
    · by_cases hd : s.depends = []
      · simp only [partitionStep, hg, hp, hd, Bool.false_eq_true, if_true, if_false] at h
        rcases h with h | h | h | h | h
        · exact Or.inl (Or.inl h)
        · exact Or.inl (Or.inr (Or.inl h))
        · exact Or.inl (Or.inr (Or.inr (Or.inl h)))
        · rcases List.mem_append.mp h with h1 | h2
          · exact Or.inl (Or.inr (Or.inr (Or.inr (Or.inl h1))))
          · exact Or.inr (List.mem_singleton.mp h2)
        · exact Or.inl (Or.inr (Or.inr (Or.inr (Or.inr h))))
      · simp only [partitionStep, hg, hp, hd, Bool.false_eq_true, if_true, if_false] at h
        rcases h with h | h | h | h | h
        · exact Or.inl (Or.inl h)
        · exact Or.inl (Or.inr (Or.inl h))
        · exact Or.inl (Or.inr (Or.inr (Or.inl h)))
        · exact Or.inl (Or.inr (Or.inr (Or.inr (Or.inl h))))
        · rcases List.mem_append.mp h with h1 | h2
          · exact Or.inl (Or.inr (Or.inr (Or.inr (Or.inr h1))))
          · exact Or.inr (List.mem_singleton.mp h2)

theorem partition_mem (l : List Rule) :
    ∀ b : Buckets, ∀ r : Rule,
      (r ∈ (l.foldl partitionStep b).glob ∨ r ∈ (l.foldl partitionStep b).privNo ∨
       r ∈ (l.foldl partitionStep b).privDep ∨ r ∈ (l.foldl partitionStep b).noDep ∨
       r ∈ (l.foldl partitionStep b).dep) →
      (r ∈ b.glob ∨ r ∈ b.privNo ∨ r ∈ b.privDep ∨ r ∈ b.noDep ∨ r ∈ b.dep)
        ∨ r ∈ l := by
  induction l with
  | nil => intro b r h; exact Or.inl h
  | cons s ss ih =>
    intro b r h
    simp only [List.foldl_cons] at h
    rcases ih (partitionStep b s) r h with hin | hl
    · rcases partitionStep_mem hin with hb | hs
      · exact Or.inl hb
      · exact Or.inr (hs ▸ List.mem_cons_self _ _)
    · exact Or.inr (List.mem_cons_of_mem _ hl)

/-- Every record of the final bundle comes from the (possibly
deduplicated) fetched list. -/
theorem bundle_mem (safe : Bool) (sigs : List Rule) :
    ∀ r ∈ (downloadCore safe sigs).1, r ∈ (preDedup safe sigs).1 := by
  intro r hr
  simp only [downloadCore, bundleList, List.append_assoc, List.mem_append] at hr
  have hb := partition_mem (preDedup safe sigs).1 emptyBuckets r
  have hfin : (r ∈ (bucketsOf safe sigs).glob ∨ r ∈ (bucketsOf safe sigs).privNo ∨
      r ∈ (bucketsOf safe sigs).privDep ∨ r ∈ (bucketsOf safe sigs).noDep ∨
      r ∈ (bucketsOf safe sigs).dep) → r ∈ (preDedup safe sigs).1 := by
    intro hin
    rcases hb hin with hempty | hl
    · simp [emptyBuckets] at hempty
    · exact hl
  rcases hr with h | h | h | h | h
  · exact hfin (Or.inl (mem_sortById.mp h))
  · exact hfin (Or.inr (Or.inl (mem_sortById.mp h)))
  · have hm := resolveLoop_out_subset safe (fun x => x.depends)
      (privateSeed safe sigs) (sortById (bucketsOf safe sigs).privDep) r h
    exact hfin (Or.inr (Or.inr (Or.inl (mem_sortById.mp hm))))
  · exact hfin (Or.inr (Or.inr (Or.inr (Or.inl (mem_sortById.mp h)))))
  · have hm := resolveLoop_out_subset safe (fun x => [x.name])
      (privatePass safe sigs).2.1 (sortById (bucketsOf safe sigs).dep) r h
    exact hfin (Or.inr (Or.inr (Or.inr (Or.inr (mem_sortById.mp hm)))))

/-- Claim C10: in safe mode a fetched record with an absent or empty name
is silently skipped before duplicate resolution — the whole computation
equals the one on the input with such records removed — and consequently
no bundle record has an empty name and the empty name never appears in
the duplicate report. -/
theorem spec_c10_empty_name_skipped (sigs : List Rule) :
    downloadCore true sigs
        = downloadCore true (sigs.filter (fun s => !(s.name == ""))) ∧
    (∀ r ∈ (downloadCore true sigs).1, ¬ r.name = "") ∧
    ¬ ("" ∈ (downloadCore true sigs).2.1) := by
  have hfold := dedup_filter sigs ([], [])
  have hd : dedup sigs = dedup (sigs.filter (fun s => !(s.name == ""))) := by
    simp only [dedup]
    rw [hfold]
  have hpre : preDedup true sigs
      = preDedup true (sigs.filter (fun s => !(s.name == ""))) := by
    simp only [preDedup, if_true]
    exact hd
  refine ⟨?_, ?_, ?_⟩
  · simp only [downloadCore, bundleList, privatePass, generalPass, privateSeed,
      bucketsOf, hpre]
  · intro r hr
    have hmem := bundle_mem true sigs r hr
    have : (preDedup true sigs).1 = (dedup sigs).1 := by simp [preDedup]
    rw [this] at hmem
    exact dedup_names sigs r hmem
  · intro hmem
    have : (downloadCore true sigs).2.1 = (dedup sigs).2 := by
      simp [downloadCore, preDedup]
    rw [this] at hmem
    exact dedup_dup_names sigs "" hmem rfl
